import Mathlib

/-!
Verification of the definition-linker of the glossary repository
(`src/utils/termLinking.ts`, function `parseDefinitionForLinks`).

Strings are modelled as `List Char`.  The JavaScript regular expression
`new RegExp("\\b" + escapeRegex(name) + "\\b", "i")` applied to a slice of the
definition is modelled directly: `escapeRegex` makes the name a literal, the
`i` flag is case-insensitive character comparison (modelled with
`Char.toLower`, which is exact for the ASCII range that the JS `\b`/`\w`
classes use), and `\b` is a word boundary with word characters
`[A-Za-z0-9_]`.  The `while` loop of the source is modelled with explicit
fuel; `none` models the case in which the JavaScript loop never returns
(which can happen only for an empty term name).  The `termMap` built by the
source is never read for any output-relevant decision and is omitted.
-/

namespace Glossary

/-- A glossary term as far as the linker reads it: `TermWithSubjects` from
`src/types/database`, restricted to the two fields `parseDefinitionForLinks`
uses (`id` and `name`). -/
structure Term where
  id : String
  name : List Char
  deriving DecidableEq

/-- `TextSegment` from `src/utils/termLinking.ts`: a run of text, tagged as a
link to a term or as plain text. -/
structure TextSegment where
  text : List Char
  isLink : Bool
  termId : Option String
  deriving DecidableEq

/-- JavaScript `\w` (no `u` flag): ASCII letters, digits and underscore. -/
def isWordChar (c : Char) : Bool :=
  c.isAlphanum || c == '_'

/-- The word-character status of position `i` of `s`; positions outside the
string count as non-word, as in JavaScript regex `\b` semantics. -/
def wordAt (s : List Char) (i : Nat) : Bool :=
  match s[i]? with
  | some c => isWordChar c
  | none => false

/-- JavaScript `\b` at position `i` of `s`: the word-character status changes
between positions `i - 1` and `i` (the position before the string counting as
non-word). -/
def boundaryAt (s : List Char) : Nat → Bool
  | 0 => wordAt s 0
  | i + 1 => wordAt s i != wordAt s (i + 1)

/-- Case-insensitive character comparison: the `i` flag of the regex. -/
def ciEq (c d : Char) : Bool :=
  c.toLower == d.toLower

/-- `ciStarts name t`: the literal `name` matches case-insensitively at the
start of `t`. -/
def ciStarts : List Char → List Char → Bool
  | [], _ => true
  | _ :: _, [] => false
  | c :: cs, d :: ds => ciEq c d && ciStarts cs ds

/-- Case-insensitive equality of two character lists. -/
def ciListEq : List Char → List Char → Bool
  | [], [] => true
  | c :: cs, d :: ds => ciEq c d && ciListEq cs ds
  | _, _ => false

/-- The regex `\b name \b` (with `name` escaped to a literal, flag `i`)
matches the string `s` at position `i`. -/
def matchAt (name s : List Char) (i : Nat) : Bool :=
  boundaryAt s i && ciStarts name (s.drop i) && boundaryAt s (i + name.length)

/-- `searchText.match(regex)` of the source: index of the leftmost match of
`\b name \b` (flag `i`) in `s`, if any.  The regex engine tries every start
position `0, …, s.length` in order. -/
def firstMatchIdx (name s : List Char) : Option Nat :=
  (List.range (s.length + 1)).find? (fun i => matchAt name s i)

/-- The first `for (const term of otherTerms)` loop of the scan: the first
candidate (in sorted order) whose regex matches the remaining text at
index 0. -/
def findLinkTerm (cands : List Term) (s : List Char) : Option Term :=
  cands.find? (fun t => firstMatchIdx t.name s == some 0)

/-- The second `for (const term of otherTerms)` loop: starting from
`init = definition.length`, lower the next-match position to `p + match.index`
whenever a candidate's regex matches the remaining text `s` and the absolute
position improves. -/
def nextMatchPos (cands : List Term) (s : List Char) (p init : Nat) : Nat :=
  cands.foldl
    (fun acc t =>
      match firstMatchIdx t.name s with
      | some i => if p + i < acc then p + i else acc
      | none => acc)
    init

/-- One stable insertion step of the candidate sort: `t` is placed before the
first element of strictly smaller name length, hence after all earlier
elements of greater or equal length. -/
def insertByLen (t : Term) : List Term → List Term
  | [] => [t]
  | u :: us => if u.name.length < t.name.length then t :: u :: us else u :: insertByLen t us

/-- `allTerms.sort((a, b) => b.name.length - a.name.length)` of the source: a
stable sort by name length, longest first (ECMAScript sorts are stable, and a
stable sort's output is determined by the comparator, so insertion sort is an
exact model). -/
def sortByLenDesc (l : List Term) : List Term :=
  l.foldl (fun acc t => insertByLen t acc) []

/-- The `while (processedIndex < definition.length)` loop of
`parseDefinitionForLinks`, with explicit fuel.  Each iteration either emits a
link segment for the candidate found at the current position or emits the gap
up to the next candidate match (dropping an empty gap, as the source's
`if (text)` does).  `none` means the fuel ran out, which models a
non-returning run of the JavaScript loop. -/
def scanLoop (dfn : List Char) (cands : List Term) : Nat → Nat → Option (List TextSegment)
  | 0, p => if p < dfn.length then none else some []
  | fuel + 1, p =>
    if p < dfn.length then
      match findLinkTerm cands (dfn.drop p) with
      | some t =>
        (scanLoop dfn cands fuel (p + t.name.length)).map
          (fun rest => ⟨(dfn.drop p).take t.name.length, true, some t.id⟩ :: rest)
      | none =>
        let np := nextMatchPos cands (dfn.drop p) p dfn.length
        let text := (dfn.drop p).take (np - p)
        (scanLoop dfn cands fuel np).map
          (fun rest => if text.isEmpty then rest else ⟨text, false, none⟩ :: rest)
    else some []

/-- Helper for the final merge loop of the source: `cur` is the segment most
recently pushed onto the merged list; a following plain segment is absorbed
into a plain `cur`, anything else closes `cur`. -/
def mergeInto (cur : TextSegment) : List TextSegment → List TextSegment
  | [] => [cur]
  | t :: rest =>
    if cur.isLink = false ∧ t.isLink = false then
      mergeInto { cur with text := cur.text ++ t.text } rest
    else
      cur :: mergeInto t rest

/-- The final merge loop of the source: adjacent plain-text segments are
coalesced, a link segment is kept as is. -/
def mergeSegs : List TextSegment → List TextSegment
  | [] => []
  | s :: rest => mergeInto s rest

/-- `parseDefinitionForLinks` from `src/utils/termLinking.ts`.  The result is
`some segments` when the source's loop returns, `none` when it would run
forever (possible only for an empty candidate name at a word character). -/
def parseDefinitionForLinks (definition : List Char) (allTerms : List Term)
    (currentTermId : String) : Option (List TextSegment) :=
  if definition.isEmpty || allTerms.isEmpty then
    some [⟨definition, false, none⟩]
  else
    let otherTerms := sortByLenDesc (allTerms.filter (fun t => t.id != currentTermId))
    match scanLoop definition otherTerms (definition.length + 1) 0 with
    | none => none
    | some segs =>
      let merged := mergeSegs segs
      some (if merged.isEmpty then [⟨definition, false, none⟩] else merged)

/-- Concatenation of the `text` fields of a segment list, in order. -/
def concatTexts : List TextSegment → List Char
  | [] => []
  | s :: rest => s.text ++ concatTexts rest

/-- Word-character status of the first character of `l` (`false` when `l` is
empty). -/
def wordAtHead (l : List Char) : Bool :=
  match l.head? with
  | some c => isWordChar c
  | none => false

/-- Word-character status of the last character of `l` (`false` when `l` is
empty). -/
def wordAtLast (l : List Char) : Bool :=
  match l.getLast? with
  | some c => isWordChar c
  | none => false

@[simp]
theorem concatTexts_nil : concatTexts [] = [] := rfl

@[simp]
theorem concatTexts_cons (s : TextSegment) (rest : List TextSegment) :
    concatTexts (s :: rest) = s.text ++ concatTexts rest := rfl

theorem concatTexts_append (l₁ l₂ : List TextSegment) :
    concatTexts (l₁ ++ l₂) = concatTexts l₁ ++ concatTexts l₂ := by
  induction l₁ with
  | nil => simp
  | cons s rest ih => simp [ih]

theorem nextMatchPos_nil (s : List Char) (p init : Nat) :
    nextMatchPos [] s p init = init := rfl

theorem nextMatchPos_cons (t : Term) (ts : List Term) (s : List Char) (p init : Nat) :
    nextMatchPos (t :: ts) s p init =
      nextMatchPos ts s p
        (match firstMatchIdx t.name s with
         | some i => if p + i < init then p + i else init
         | none => init) := rfl

theorem nextMatchPos_ge (cands : List Term) (s : List Char) (p : Nat) :
    ∀ init, p ≤ init → p ≤ nextMatchPos cands s p init := by
  induction cands with
  | nil => intro init h; simpa [nextMatchPos_nil] using h
  | cons t ts ih =>
    intro init h
    rw [nextMatchPos_cons]
    apply ih
    cases hi : firstMatchIdx t.name s with
    | none => simpa using h
    | some i =>
      simp only
      split
      · omega
      · exact h

theorem scanLoop_concat (dfn : List Char) (cands : List Term) :
    ∀ fuel p segs, scanLoop dfn cands fuel p = some segs →
      concatTexts segs = dfn.drop p := by
  intro fuel
  induction fuel with
  | zero =>
    intro p segs h
    simp only [scanLoop] at h
    split at h
    next => exact absurd h (by simp)
    next hp =>
      cases h
      simp only [concatTexts_nil]
      exact (List.drop_eq_nil_iff.mpr (by omega)).symm
  | succ fuel ih =>
    intro p segs h
    simp only [scanLoop] at h
    split at h
    case isTrue hp =>
      cases hft : findLinkTerm cands (dfn.drop p) with
      | some t =>
        rw [hft] at h
        rw [Option.map_eq_some'] at h
        obtain ⟨rest, hrest, hsegs⟩ := h
        subst hsegs
        have hc := ih (p + t.name.length) rest hrest
        have hdd : List.drop (p + t.name.length) dfn =
            List.drop t.name.length (List.drop p dfn) :=
          (List.drop_drop _ _ _).symm
        simp only [concatTexts_cons, hc, hdd]
        exact List.take_append_drop _ _
      | none =>
        rw [hft] at h
        simp only [Option.map_eq_some'] at h
        obtain ⟨rest, hrest, hsegs⟩ := h
        have hnp : p ≤ nextMatchPos cands (dfn.drop p) p dfn.length :=
          nextMatchPos_ge _ _ _ _ (by omega)
        set np := nextMatchPos cands (dfn.drop p) p dfn.length with hnpdef
        have hc := ih np rest hrest
        by_cases he : ((dfn.drop p).take (np - p)).isEmpty
        · rw [if_pos he] at hsegs
          subst hsegs
          have hdropne : dfn.drop p ≠ [] := by
            intro hnil
            have := List.drop_eq_nil_iff.mp hnil
            omega
          have : np - p = 0 := by
            rcases List.take_eq_nil_iff.mp (List.isEmpty_iff.mp he) with h0 | h0
            · exact h0
            · exact absurd h0 hdropne
          have hpe : np = p := by omega
          rw [hc, hpe]
        · rw [if_neg he] at hsegs
          subst hsegs
          have hdd : List.drop np dfn = List.drop (np - p) (List.drop p dfn) := by
            rw [List.drop_drop]
            congr 1
            omega
          simp only [concatTexts_cons, hc, hdd]
          exact List.take_append_drop _ _
    case isFalse hp =>
      cases h
      simp only [concatTexts_nil]
      exact (List.drop_eq_nil_iff.mpr (by omega)).symm

theorem mergeInto_concat (l : List TextSegment) :
    ∀ cur, concatTexts (mergeInto cur l) = cur.text ++ concatTexts l := by
  induction l with
  | nil => intro cur; simp [mergeInto]
  | cons t rest ih =>
    intro cur
    simp only [mergeInto]
    split
    · rw [ih]; simp
    · simp [ih]

theorem mergeSegs_concat (l : List TextSegment) :
    concatTexts (mergeSegs l) = concatTexts l := by
  cases l with
  | nil => rfl
  | cons s rest => simp [mergeSegs, mergeInto_concat]

/-- Round-trip helper: the segments returned by the linker concatenate back
to the definition. -/
theorem parse_concat (D : List Char) (T : List Term) (cid : String)
    (segs : List TextSegment) (h : parseDefinitionForLinks D T cid = some segs) :
    concatTexts segs = D := by
  unfold parseDefinitionForLinks at h
  split at h
  · cases h
    simp
  · dsimp only at h
    cases hscan : scanLoop D (sortByLenDesc (T.filter (fun t => t.id != cid)))
        (D.length + 1) 0 with
    | none => rw [hscan] at h; cases h
    | some raw =>
      rw [hscan] at h
      cases h
      split
      · simp
      · rw [mergeSegs_concat, scanLoop_concat D _ _ 0 raw hscan, List.drop_zero]

/-- Claim C1: for every definition `D`, term list `T` and `currentTermId`,
concatenating the `text` fields of the segments returned by
`parseDefinitionForLinks D T currentTermId`, in order, equals `D` exactly:
the segments partition `D` with no gaps and no overlaps. -/
theorem C1_round_trip (D : List Char) (T : List Term) (cid : String)
    (segs : List TextSegment) (h : parseDefinitionForLinks D T cid = some segs) :
    concatTexts segs = D :=
  parse_concat D T cid segs h

/-- Witness for C1 at a concrete input where a link is produced. -/
theorem C1_round_trip_witness :
    concatTexts [⟨"a ".data, false, none⟩, ⟨"cell".data, true, some "id1"⟩] =
      "a cell".data :=
  C1_round_trip "a cell".data [⟨"id1", "cell".data⟩] "id0"
    [⟨"a ".data, false, none⟩, ⟨"cell".data, true, some "id1"⟩] (by decide)

/-- Claim C7: matching is case-insensitive but the emitted link text keeps
the original casing of the definition: with a term named `mitosis` the
definition `Mitosis is important` yields a link segment whose text is
`Mitosis` with that term's id. -/
theorem C7_case_preserved :
    parseDefinitionForLinks "Mitosis is important".data [⟨"id1", "mitosis".data⟩] "id0" =
      some [⟨"Mitosis".data, true, some "id1"⟩, ⟨" is important".data, false, none⟩] := by
  decide

/-- Claim C8: for every term list and `currentTermId`, the empty definition
yields exactly one non-link segment with empty text. -/
theorem C8_empty_definition (T : List Term) (cid : String) :
    parseDefinitionForLinks [] T cid = some [⟨[], false, none⟩] := by
  simp [parseDefinitionForLinks]

theorem ciStarts_iff (n : List Char) :
    ∀ t, ciStarts n t = true ↔ n.map Char.toLower = (t.take n.length).map Char.toLower := by
  induction n with
  | nil => intro t; simp [ciStarts]
  | cons c cs ih =>
    intro t
    cases t with
    | nil => simp [ciStarts]
    | cons d ds => simp [ciStarts, ciEq, ih, Bool.and_eq_true, beq_iff_eq]

theorem ciListEq_iff (a : List Char) :
    ∀ b, ciListEq a b = true ↔ a.map Char.toLower = b.map Char.toLower := by
  induction a with
  | nil => intro b; cases b <;> simp [ciListEq]
  | cons c cs ih =>
    intro b
    cases b with
    | nil => simp [ciListEq]
    | cons d ds => simp [ciListEq, ciEq, ih, Bool.and_eq_true, beq_iff_eq]

theorem ciStarts_length_le (n t : List Char) (h : ciStarts n t = true) :
    n.length ≤ t.length := by
  have := congrArg List.length ((ciStarts_iff n t).mp h)
  simp only [List.length_map, List.length_take] at this
  omega

theorem ciStarts_take (n t : List Char) (h : ciStarts n t = true) :
    ciListEq (t.take n.length) n = true := by
  rw [ciListEq_iff]
  exact ((ciStarts_iff n t).mp h).symm

theorem firstMatchIdx_matchAt (name s : List Char) (i : Nat)
    (h : firstMatchIdx name s = some i) : matchAt name s i = true :=
  List.find?_some h

theorem matchAt_firstMatchIdx_zero (name s : List Char) (h : matchAt name s 0 = true) :
    firstMatchIdx name s = some 0 := by
  unfold firstMatchIdx
  rw [List.range_succ_eq_map]
  simp [List.find?, h]

theorem findLinkTerm_mem (cands : List Term) (s : List Char) (t : Term)
    (h : findLinkTerm cands s = some t) : t ∈ cands :=
  List.mem_of_find?_eq_some h

theorem findLinkTerm_matches (cands : List Term) (s : List Char) (t : Term)
    (h : findLinkTerm cands s = some t) : matchAt t.name s 0 = true := by
  have hp := List.find?_some h
  simp only [beq_iff_eq] at hp
  exact firstMatchIdx_matchAt _ _ _ hp

theorem matchAt_zero_ciStarts (name s : List Char) (h : matchAt name s 0 = true) :
    ciStarts name s = true := by
  simp only [matchAt, Bool.and_eq_true, List.drop_zero] at h
  exact h.1.2

theorem scanLoop_links (dfn : List Char) (cands : List Term) :
    ∀ fuel p segs, scanLoop dfn cands fuel p = some segs →
      ∀ seg ∈ segs, seg.isLink = true →
        ∃ t, t ∈ cands ∧ seg.termId = some t.id ∧
          seg.text.length = t.name.length ∧ ciListEq seg.text t.name = true := by
  intro fuel
  induction fuel with
  | zero =>
    intro p segs h
    simp only [scanLoop] at h
    split at h
    next => exact absurd h (by simp)
    next => cases h; intro seg hmem; cases hmem
  | succ fuel ih =>
    intro p segs h
    simp only [scanLoop] at h
    split at h
    case isTrue hp =>
      cases hft : findLinkTerm cands (dfn.drop p) with
      | some t =>
        rw [hft] at h
        rw [Option.map_eq_some'] at h
        obtain ⟨rest, hrest, hsegs⟩ := h
        subst hsegs
        intro seg hmem hlink
        rcases List.mem_cons.mp hmem with hseg | hseg
        · subst hseg
          refine ⟨t, findLinkTerm_mem _ _ _ hft, rfl, ?_, ?_⟩
          · have hci := matchAt_zero_ciStarts _ _ (findLinkTerm_matches _ _ _ hft)
            have hle := ciStarts_length_le _ _ hci
            simp only [List.length_take]
            omega
          · exact ciStarts_take _ _ (matchAt_zero_ciStarts _ _ (findLinkTerm_matches _ _ _ hft))
        · exact ih _ rest hrest seg hseg hlink
      | none =>
        rw [hft] at h
        simp only [Option.map_eq_some'] at h
        obtain ⟨rest, hrest, hsegs⟩ := h
        intro seg hmem hlink
        subst hsegs
        split at hmem
        · exact ih _ rest hrest seg hmem hlink
        · rcases List.mem_cons.mp hmem with hseg | hseg
          · subst hseg; cases hlink
          · exact ih _ rest hrest seg hseg hlink
    case isFalse hp =>
      cases h; intro seg hmem; cases hmem

theorem mergeInto_link_mem (l : List TextSegment) :
    ∀ cur seg, seg ∈ mergeInto cur l → seg.isLink = true → seg = cur ∨ seg ∈ l := by
  induction l with
  | nil =>
    intro cur seg hmem _
    simp only [mergeInto] at hmem
    rcases List.mem_singleton.mp hmem with h
    exact Or.inl h
  | cons t rest ih =>
    intro cur seg hmem hlink
    simp only [mergeInto] at hmem
    split at hmem
    case isTrue hb =>
      rcases ih _ seg hmem hlink with hseg | hseg
      · rw [hseg] at hlink
        simp only at hlink
        rw [hb.1] at hlink
        cases hlink
      · exact Or.inr (List.mem_cons_of_mem _ hseg)
    case isFalse hb =>
      rcases List.mem_cons.mp hmem with hseg | hseg
      · exact Or.inl hseg
      · rcases ih _ seg hseg hlink with hseg2 | hseg2
        · exact Or.inr (hseg2 ▸ List.mem_cons_self _ _)
        · exact Or.inr (List.mem_cons_of_mem _ hseg2)

theorem mergeSegs_link_mem (l : List TextSegment) (seg : TextSegment)
    (h : seg ∈ mergeSegs l) (hlink : seg.isLink = true) : seg ∈ l := by
  cases l with
  | nil => cases h
  | cons s rest =>
    rcases mergeInto_link_mem rest s seg h hlink with hseg | hseg
    · exact hseg ▸ List.mem_cons_self _ _
    · exact List.mem_cons_of_mem _ hseg

theorem insertByLen_perm (t : Term) (l : List Term) :
    (insertByLen t l).Perm (t :: l) := by
  induction l with
  | nil => exact List.Perm.refl _
  | cons u us ih =>
    simp only [insertByLen]
    split
    · exact List.Perm.refl _
    · exact (ih.cons u).trans (List.Perm.swap t u us)

theorem sortByLenDesc_perm_aux (l : List Term) :
    ∀ acc, (l.foldl (fun acc t => insertByLen t acc) acc).Perm (l ++ acc) := by
  induction l with
  | nil => intro acc; exact List.Perm.refl _
  | cons x xs ih =>
    intro acc
    simp only [List.foldl_cons]
    exact ((ih _).trans ((insertByLen_perm x acc).append_left xs)).trans
      List.perm_middle

theorem sortByLenDesc_perm (l : List Term) : (sortByLenDesc l).Perm l := by
  have := sortByLenDesc_perm_aux l []
  simpa using this

theorem mem_sortByLenDesc (t : Term) (l : List Term) :
    t ∈ sortByLenDesc l ↔ t ∈ l :=
  (sortByLenDesc_perm l).mem_iff

/-- Every link segment of the scan output refers to a candidate term:
a term of the input list whose id differs from `currentTermId`, whose name
has exactly the segment's text length and is case-insensitively equal to it. -/
theorem parse_link_candidate (D : List Char) (T : List Term) (cid : String)
    (segs : List TextSegment) (seg : TextSegment)
    (h : parseDefinitionForLinks D T cid = some segs)
    (hmem : seg ∈ segs) (hlink : seg.isLink = true) :
    ∃ t, t ∈ T ∧ t.id ≠ cid ∧ seg.termId = some t.id ∧
      seg.text.length = t.name.length ∧ ciListEq seg.text t.name = true := by
  unfold parseDefinitionForLinks at h
  split at h
  · cases h
    rcases List.mem_singleton.mp hmem with rfl
    cases hlink
  · dsimp only at h
    cases hscan : scanLoop D (sortByLenDesc (T.filter (fun t => t.id != cid)))
        (D.length + 1) 0 with
    | none => rw [hscan] at h; cases h
    | some raw =>
      rw [hscan] at h
      cases h
      split at hmem
      · rcases List.mem_singleton.mp hmem with rfl
        cases hlink
      · have hraw := mergeSegs_link_mem raw seg hmem hlink
        obtain ⟨t, htmem, hid, hlen, hci⟩ :=
          scanLoop_links D _ (D.length + 1) 0 raw hscan seg hraw hlink
        rw [mem_sortByLenDesc] at htmem
        have := List.mem_filter.mp htmem
        refine ⟨t, this.1, ?_, hid, hlen, hci⟩
        simpa using this.2

/-- Claim C3: no returned segment is a link to `currentTermId` itself. -/
theorem C3_no_self_link (D : List Char) (T : List Term) (cid : String)
    (segs : List TextSegment) (seg : TextSegment)
    (h : parseDefinitionForLinks D T cid = some segs)
    (hmem : seg ∈ segs) (hlink : seg.isLink = true) :
    seg.termId ≠ some cid := by
  obtain ⟨t, _, hne, hid, _, _⟩ := parse_link_candidate D T cid segs seg h hmem hlink
  rw [hid]
  intro hcontra
  exact hne (Option.some.injEq _ _ ▸ hcontra)

/-- Witness for C3 at a concrete input. -/
theorem C3_no_self_link_witness :
    (⟨"cell".data, true, some "id1"⟩ : TextSegment).termId ≠ some "id0" :=
  C3_no_self_link "a cell".data [⟨"id1", "cell".data⟩] "id0"
    [⟨"a ".data, false, none⟩, ⟨"cell".data, true, some "id1"⟩]
    ⟨"cell".data, true, some "id1"⟩ (by decide) (by decide) rfl

/-- Claim C10: every returned link segment carries the id of some input term
other than the current one, and its text has exactly that term's name length
and equals the name case-insensitively. -/
theorem C10_link_targets (D : List Char) (T : List Term) (cid : String)
    (segs : List TextSegment) (seg : TextSegment)
    (h : parseDefinitionForLinks D T cid = some segs)
    (hmem : seg ∈ segs) (hlink : seg.isLink = true) :
    T.any (fun t => t.id != cid && seg.termId == some t.id &&
      seg.text.length == t.name.length && ciListEq seg.text t.name) = true := by
  obtain ⟨t, htmem, hne, hid, hlen, hci⟩ := parse_link_candidate D T cid segs seg h hmem hlink
  rw [List.any_eq_true]
  refine ⟨t, htmem, ?_⟩
  simp [hne, hid, hlen, hci]

/-- Witness for C10 at a concrete input. -/
theorem C10_link_targets_witness :
    List.any [(⟨"id1", "cell".data⟩ : Term)]
      (fun t => t.id != "id0" &&
        (⟨"cell".data, true, some "id1"⟩ : TextSegment).termId == some t.id &&
        (⟨"cell".data, true, some "id1"⟩ : TextSegment).text.length == t.name.length &&
        ciListEq (⟨"cell".data, true, some "id1"⟩ : TextSegment).text t.name) = true :=
  C10_link_targets "a cell".data [⟨"id1", "cell".data⟩] "id0"
    [⟨"a ".data, false, none⟩, ⟨"cell".data, true, some "id1"⟩]
    ⟨"cell".data, true, some "id1"⟩ (by decide) (by decide) rfl

theorem mergeInto_head (l : List TextSegment) :
    ∀ cur, ∃ x tail, mergeInto cur l = x :: tail ∧ x.isLink = cur.isLink := by
  induction l with
  | nil => intro cur; exact ⟨cur, [], rfl, rfl⟩
  | cons t rest ih =>
    intro cur
    simp only [mergeInto]
    split
    case isTrue hb =>
      obtain ⟨x, tail, heq, hiso⟩ := ih { cur with text := cur.text ++ t.text }
      exact ⟨x, tail, heq, hiso⟩
    case isFalse hb =>
      exact ⟨cur, mergeInto t rest, rfl, rfl⟩

theorem mergeInto_chain (l : List TextSegment) :
    ∀ cur, List.Chain' (fun a b => a.isLink = true ∨ b.isLink = true) (mergeInto cur l) := by
  induction l with
  | nil => intro cur; simp [mergeInto]
  | cons t rest ih =>
    intro cur
    simp only [mergeInto]
    split
    case isTrue hb => exact ih _
    case isFalse hb =>
      obtain ⟨x, tail, heq, hiso⟩ := mergeInto_head rest t
      rw [heq]
      rw [List.chain'_cons]
      constructor
      · cases hcur : cur.isLink with
        | true => exact Or.inl rfl
        | false =>
          cases htl : t.isLink with
          | true => exact Or.inr (hiso.trans htl)
          | false => exact absurd ⟨hcur, htl⟩ hb
      · rw [← heq]
        exact ih t

/-- Claim C9: in every returned segment list, no two consecutive segments are
both plain text. -/
theorem C9_no_adjacent_plain (D : List Char) (T : List Term) (cid : String)
    (segs : List TextSegment) (h : parseDefinitionForLinks D T cid = some segs) :
    List.Chain' (fun a b => a.isLink = true ∨ b.isLink = true) segs := by
  unfold parseDefinitionForLinks at h
  split at h
  · cases h; simp
  · dsimp only at h
    cases hscan : scanLoop D (sortByLenDesc (T.filter (fun t => t.id != cid)))
        (D.length + 1) 0 with
    | none => rw [hscan] at h; cases h
    | some raw =>
      rw [hscan] at h
      cases h
      split
      · simp
      · cases raw with
        | nil => simp [mergeSegs]
        | cons s rest => exact mergeInto_chain rest s

/-- Witness for C9 at a concrete input with two segments. -/
theorem C9_no_adjacent_plain_witness :
    List.Chain' (fun a b => a.isLink = true ∨ b.isLink = true)
      [(⟨"a ".data, false, none⟩ : TextSegment), ⟨"cell".data, true, some "id1"⟩] :=
  C9_no_adjacent_plain "a cell".data [⟨"id1", "cell".data⟩] "id0"
    [⟨"a ".data, false, none⟩, ⟨"cell".data, true, some "id1"⟩] (by decide)

theorem nextMatchPos_gt (s : List Char) (p : Nat) :
    ∀ cands : List Term, (∀ t ∈ cands, firstMatchIdx t.name s ≠ some 0) →
      ∀ init, p < init → p < nextMatchPos cands s p init := by
  intro cands
  induction cands with
  | nil => intro _ init h; simpa [nextMatchPos_nil] using h
  | cons t ts ih =>
    intro hno init h
    rw [nextMatchPos_cons]
    apply ih (fun u hu => hno u (List.mem_cons_of_mem _ hu))
    cases hi : firstMatchIdx t.name s with
    | none => simpa using h
    | some i =>
      have hiz : i ≠ 0 := by
        intro h0
        exact hno t (List.mem_cons_self _ _) (h0 ▸ hi)
      simp only
      split <;> omega

theorem scanLoop_total (dfn : List Char) (cands : List Term)
    (hne : ∀ t ∈ cands, t.name ≠ []) :
    ∀ fuel p, dfn.length < fuel + p → ∃ segs, scanLoop dfn cands fuel p = some segs := by
  intro fuel
  induction fuel with
  | zero =>
    intro p h
    simp only [scanLoop]
    rw [if_neg (by omega)]
    exact ⟨[], rfl⟩
  | succ fuel ih =>
    intro p h
    simp only [scanLoop]
    split
    case isTrue hp =>
      cases hft : findLinkTerm cands (dfn.drop p) with
      | some t =>
        have htne : t.name ≠ [] := hne t (findLinkTerm_mem _ _ _ hft)
        have hlen : 0 < t.name.length := List.length_pos.mpr htne
        obtain ⟨rest, hrest⟩ := ih (p + t.name.length) (by omega)
        refine ⟨⟨(dfn.drop p).take t.name.length, true, some t.id⟩ :: rest, ?_⟩
        dsimp only
        rw [hrest]
        rfl
      | none =>
        have hno : ∀ u ∈ cands, firstMatchIdx u.name (dfn.drop p) ≠ some 0 := by
          intro u hu hcontra
          have hfu := List.find?_eq_none.mp hft u hu
          rw [hcontra] at hfu
          simp at hfu
        have hgt := nextMatchPos_gt (dfn.drop p) p cands hno dfn.length hp
        obtain ⟨rest, hrest⟩ := ih (nextMatchPos cands (dfn.drop p) p dfn.length) (by omega)
        refine ⟨if ((dfn.drop p).take (nextMatchPos cands (dfn.drop p) p dfn.length - p)).isEmpty
            then rest
            else ⟨(dfn.drop p).take (nextMatchPos cands (dfn.drop p) p dfn.length - p),
              false, none⟩ :: rest, ?_⟩
        dsimp only
        rw [hrest]
        rfl
    case isFalse hp => exact ⟨[], rfl⟩

/-- Claim C6: when every term name is non-empty, the linker terminates and
returns a complete segment list covering the whole definition. -/
theorem C6_terminates (D : List Char) (T : List Term) (cid : String)
    (h : ∀ t ∈ T, t.name ≠ []) :
    (parseDefinitionForLinks D T cid).isSome = true ∧
      concatTexts ((parseDefinitionForLinks D T cid).getD []) = D := by
  have hex : ∃ segs, parseDefinitionForLinks D T cid = some segs := by
    unfold parseDefinitionForLinks
    split
    · exact ⟨_, rfl⟩
    · dsimp only
      have hcand : ∀ t ∈ sortByLenDesc (T.filter (fun t => t.id != cid)), t.name ≠ [] := by
        intro t ht
        exact h t (List.mem_filter.mp ((mem_sortByLenDesc _ _).mp ht)).1
      obtain ⟨segs, hsegs⟩ := scanLoop_total D _ hcand (D.length + 1) 0 (by omega)
      rw [hsegs]
      exact ⟨_, rfl⟩
  obtain ⟨segs, hsegs⟩ := hex
  rw [hsegs]
  refine ⟨rfl, ?_⟩
  simpa using parse_concat D T cid segs hsegs

theorem insertByLen_pairwise (t : Term) (l : List Term)
    (h : List.Pairwise (fun a b => b.name.length ≤ a.name.length) l) :
    List.Pairwise (fun a b => b.name.length ≤ a.name.length) (insertByLen t l) := by
  induction l with
  | nil => simp [insertByLen]
  | cons u us ih =>
    rcases List.pairwise_cons.mp h with ⟨hu, hus⟩
    simp only [insertByLen]
    split
    case isTrue hlt =>
      rw [List.pairwise_cons]
      refine ⟨?_, h⟩
      intro x hx
      rcases List.mem_cons.mp hx with rfl | hx2
      · omega
      · have := hu x hx2; omega
    case isFalse hge =>
      rw [List.pairwise_cons]
      constructor
      · intro x hx
        have hx2 := (insertByLen_perm t us).mem_iff.mp hx
        rcases List.mem_cons.mp hx2 with rfl | hx3
        · omega
        · exact hu x hx3
      · exact ih hus

theorem sortByLenDesc_pairwise (l : List Term) :
    List.Pairwise (fun a b => b.name.length ≤ a.name.length) (sortByLenDesc l) := by
  have aux : ∀ (l₂ : List Term) (acc : List Term),
      List.Pairwise (fun a b => b.name.length ≤ a.name.length) acc →
      List.Pairwise (fun a b => b.name.length ≤ a.name.length)
        (l₂.foldl (fun acc t => insertByLen t acc) acc) := by
    intro l₂
    induction l₂ with
    | nil => intro acc h; exact h
    | cons x xs ih => intro acc h; exact ih _ (insertByLen_pairwise x acc h)
  exact aux l [] List.Pairwise.nil

/-- In a candidate list sorted by name length descending, the candidate the
scan links (the first whose regex matches at position 0) has the greatest
name length among all candidates matching at position 0. -/
theorem findLinkTerm_longest (s : List Char) :
    ∀ (cands : List Term) (t : Term),
      List.Pairwise (fun a b => b.name.length ≤ a.name.length) cands →
      findLinkTerm cands s = some t →
      ∀ u ∈ cands, matchAt u.name s 0 = true → u.name.length ≤ t.name.length := by
  intro cands
  induction cands with
  | nil => intro t _ h; cases h
  | cons c cs ih =>
    intro t hpw hf u hu hm
    rcases List.pairwise_cons.mp hpw with ⟨hc, hcs⟩
    by_cases hpc : (firstMatchIdx c.name s == some 0) = true
    · have ht : t = c := by
        unfold findLinkTerm at hf
        rw [List.find?_cons] at hf
        simp only [hpc] at hf
        exact (Option.some.inj hf).symm
      subst ht
      rcases List.mem_cons.mp hu with rfl | hu2
      · exact Nat.le_refl _
      · exact hc u hu2
    · have hf2 : findLinkTerm cs s = some t := by
        unfold findLinkTerm at hf ⊢
        rw [List.find?_cons] at hf
        rw [Bool.not_eq_true] at hpc
        simp only [hpc] at hf
        exact hf
      rcases List.mem_cons.mp hu with rfl | hu2
      · exact absurd (by rw [matchAt_firstMatchIdx_zero _ _ hm]; simp) hpc
      · exact ih t hcs hf2 u hu2 hm

/-- Claim C4: the candidate sort is by name length descending, the scan links
the longest candidate matching at the current position, and on the spec's
example `Cell`/`Cell Division` the whole compound term is linked. -/
theorem C4_longest_match :
    (∀ l : List Term,
      List.Pairwise (fun a b => b.name.length ≤ a.name.length) (sortByLenDesc l)) ∧
    (∀ (s : List Char) (cands : List Term) (t : Term),
      List.Pairwise (fun a b => b.name.length ≤ a.name.length) cands →
      findLinkTerm cands s = some t →
      ∀ u ∈ cands, matchAt u.name s 0 = true → u.name.length ≤ t.name.length) ∧
    parseDefinitionForLinks "Cell Division is a process".data
      [⟨"id1", "Cell".data⟩, ⟨"id2", "Cell Division".data⟩] "id0" =
      some [⟨"Cell Division".data, true, some "id2"⟩,
        ⟨" is a process".data, false, none⟩] :=
  ⟨sortByLenDesc_pairwise, fun s => findLinkTerm_longest s, by decide⟩

/-- Witness for C4: the longest-match property applied at the example. -/
theorem C4_longest_match_witness :
    (⟨"id1", "Cell".data⟩ : Term).name.length ≤
      (⟨"id2", "Cell Division".data⟩ : Term).name.length :=
  C4_longest_match.2.1 "Cell Division is a process".data
    [⟨"id2", "Cell Division".data⟩, ⟨"id1", "Cell".data⟩] ⟨"id2", "Cell Division".data⟩
    (by decide) (by decide) ⟨"id1", "Cell".data⟩ (by decide) (by decide)

theorem foldl_eq_of_perm {α β : Type} (f : β → α → β)
    (hf : ∀ b a₁ a₂, f (f b a₁) a₂ = f (f b a₂) a₁)
    {l₁ l₂ : List α} (h : l₁.Perm l₂) : ∀ b, l₁.foldl f b = l₂.foldl f b := by
  induction h with
  | nil => intro b; rfl
  | cons x h ih => intro b; simp only [List.foldl_cons]; exact ih _
  | swap x y l => intro b; simp only [List.foldl_cons]; rw [hf]
  | trans h₁ h₂ ih₁ ih₂ => intro b; exact (ih₁ b).trans (ih₂ b)

theorem nextMatchPos_perm (s : List Char) (p init : Nat) (c₁ c₂ : List Term)
    (h : c₁.Perm c₂) : nextMatchPos c₁ s p init = nextMatchPos c₂ s p init := by
  unfold nextMatchPos
  apply foldl_eq_of_perm _ _ h
  intro b a₁ a₂
  cases hi₁ : firstMatchIdx a₁.name s <;> cases hi₂ : firstMatchIdx a₂.name s <;>
    simp only [hi₁, hi₂]
  split_ifs <;> omega

theorem ciDist_symm :
    Symmetric (fun a b : Term => ciListEq a.name b.name = false) := by
  intro x y h
  cases hxy : ciListEq y.name x.name
  · rfl
  · exfalso
    rw [ciListEq_iff] at hxy
    have hx : ciListEq x.name y.name = true := (ciListEq_iff _ _).mpr hxy.symm
    rw [h] at hx
    cases hx

theorem terms_eq_of_ciListEq {l : List Term}
    (hd : List.Pairwise (fun a b => ciListEq a.name b.name = false) l)
    {a b : Term} (ha : a ∈ l) (hb : b ∈ l)
    (hci : ciListEq a.name b.name = true) : a = b := by
  by_contra hne
  have := hd.forall ciDist_symm ha hb hne
  rw [hci] at this
  cases this

theorem findLinkTerm_perm (s : List Char) (c₁ c₂ : List Term) (hp : c₁.Perm c₂)
    (h₁ : List.Pairwise (fun a b => b.name.length ≤ a.name.length) c₁)
    (h₂ : List.Pairwise (fun a b => b.name.length ≤ a.name.length) c₂)
    (hd : List.Pairwise (fun a b => ciListEq a.name b.name = false) c₁) :
    findLinkTerm c₁ s = findLinkTerm c₂ s := by
  cases e₁ : findLinkTerm c₁ s with
  | none =>
    cases e₂ : findLinkTerm c₂ s with
    | none => rfl
    | some t₂ =>
      exfalso
      have hmem : t₂ ∈ c₁ := hp.mem_iff.mpr (findLinkTerm_mem _ _ _ e₂)
      have hpred := List.find?_some e₂
      unfold findLinkTerm at e₁
      exact List.find?_eq_none.mp e₁ t₂ hmem hpred
  | some t₁ =>
    cases e₂ : findLinkTerm c₂ s with
    | none =>
      exfalso
      have hmem : t₁ ∈ c₂ := hp.mem_iff.mp (findLinkTerm_mem _ _ _ e₁)
      have hpred := List.find?_some e₁
      unfold findLinkTerm at e₂
      exact List.find?_eq_none.mp e₂ t₁ hmem hpred
    | some t₂ =>
      have hm₁ : matchAt t₁.name s 0 = true := findLinkTerm_matches _ _ _ e₁
      have hm₂ : matchAt t₂.name s 0 = true := findLinkTerm_matches _ _ _ e₂
      have ht₁c₂ : t₁ ∈ c₂ := hp.mem_iff.mp (findLinkTerm_mem _ _ _ e₁)
      have ht₂c₁ : t₂ ∈ c₁ := hp.mem_iff.mpr (findLinkTerm_mem _ _ _ e₂)
      have hle₁ : t₂.name.length ≤ t₁.name.length :=
        findLinkTerm_longest s c₁ t₁ h₁ e₁ t₂ ht₂c₁ hm₂
      have hle₂ : t₁.name.length ≤ t₂.name.length :=
        findLinkTerm_longest s c₂ t₂ h₂ e₂ t₁ ht₁c₂ hm₁
      have hlen : t₁.name.length = t₂.name.length := Nat.le_antisymm hle₂ hle₁
      have hciEq : ciListEq t₁.name t₂.name = true := by
        rw [ciListEq_iff]
        have f₁ := (ciStarts_iff _ s).mp (matchAt_zero_ciStarts _ _ hm₁)
        have f₂ := (ciStarts_iff _ s).mp (matchAt_zero_ciStarts _ _ hm₂)
        rw [hlen] at f₁
        exact f₁.trans f₂.symm
      have heq : t₁ = t₂ :=
        terms_eq_of_ciListEq hd (findLinkTerm_mem _ _ _ e₁) ht₂c₁ hciEq
      rw [heq]

theorem scanLoop_perm (dfn : List Char) (c₁ c₂ : List Term) (hp : c₁.Perm c₂)
    (h₁ : List.Pairwise (fun a b => b.name.length ≤ a.name.length) c₁)
    (h₂ : List.Pairwise (fun a b => b.name.length ≤ a.name.length) c₂)
    (hd : List.Pairwise (fun a b => ciListEq a.name b.name = false) c₁) :
    ∀ fuel p, scanLoop dfn c₁ fuel p = scanLoop dfn c₂ fuel p := by
  intro fuel
  induction fuel with
  | zero => intro p; rfl
  | succ fuel ih =>
    intro p
    simp only [scanLoop]
    split
    · rw [findLinkTerm_perm (dfn.drop p) c₁ c₂ hp h₁ h₂ hd]
      cases findLinkTerm c₂ (dfn.drop p) with
      | some t =>
        dsimp only
        rw [ih]
      | none =>
        dsimp only
        rw [nextMatchPos_perm (dfn.drop p) p dfn.length c₁ c₂ hp]
        rw [ih]
    · rfl

/-- Claim C5: with pairwise case-insensitively distinct term names, the
output does not depend on the order of the input term list. -/
theorem C5_order_invariant (D : List Char) (T₁ T₂ : List Term) (cid : String)
    (hperm : T₁.Perm T₂)
    (hdist : List.Pairwise (fun a b => ciListEq a.name b.name = false) T₁) :
    parseDefinitionForLinks D T₁ cid = parseDefinitionForLinks D T₂ cid := by
  unfold parseDefinitionForLinks
  have hempty : T₁.isEmpty = T₂.isEmpty := by
    have hlen := hperm.length_eq
    cases T₁ <;> cases T₂ <;> simp_all
  rw [hempty]
  split
  · rfl
  · dsimp only
    have hfp : (T₁.filter (fun t => t.id != cid)).Perm
        (T₂.filter (fun t => t.id != cid)) := hperm.filter _
    have hcperm : (sortByLenDesc (T₁.filter (fun t => t.id != cid))).Perm
        (sortByLenDesc (T₂.filter (fun t => t.id != cid))) :=
      ((sortByLenDesc_perm _).trans hfp).trans (sortByLenDesc_perm _).symm
    have hd₀ : List.Pairwise (fun a b => ciListEq a.name b.name = false)
        (T₁.filter (fun t => t.id != cid)) := hdist.filter _
    have hd₁ : List.Pairwise (fun a b => ciListEq a.name b.name = false)
        (sortByLenDesc (T₁.filter (fun t => t.id != cid))) := by
      refine ((sortByLenDesc_perm _).pairwise_iff ?_).mpr hd₀
      intro x y hxy
      exact ciDist_symm hxy
    rw [scanLoop_perm D _ _ hcperm (sortByLenDesc_pairwise _) (sortByLenDesc_pairwise _)
      hd₁ (D.length + 1) 0]

/-- Witness for C5: swapping the two terms of the `Cell`/`Cell Division`
catalog leaves the output unchanged. -/
theorem C5_order_invariant_witness :
    parseDefinitionForLinks "Cell Division is a process".data
      [⟨"id1", "Cell".data⟩, ⟨"id2", "Cell Division".data⟩] "id0" =
    parseDefinitionForLinks "Cell Division is a process".data
      [⟨"id2", "Cell Division".data⟩, ⟨"id1", "Cell".data⟩] "id0" :=
  C5_order_invariant "Cell Division is a process".data
    [⟨"id1", "Cell".data⟩, ⟨"id2", "Cell Division".data⟩]
    [⟨"id2", "Cell Division".data⟩, ⟨"id1", "Cell".data⟩] "id0"
    (by decide) (by decide)

/-- Witness for C6 at a concrete input. -/
theorem C6_terminates_witness :
    (parseDefinitionForLinks "a cell".data [⟨"id1", "cell".data⟩] "id0").isSome = true ∧
      concatTexts ((parseDefinitionForLinks "a cell".data
        [⟨"id1", "cell".data⟩] "id0").getD []) = "a cell".data :=
  C6_terminates "a cell".data [⟨"id1", "cell".data⟩] "id0" (by decide)

theorem wordAt_drop (s : List Char) (p i : Nat) :
    wordAt (s.drop p) i = wordAt s (p + i) := by
  unfold wordAt
  rw [List.getElem?_drop]

theorem boundaryAt_drop_zero (s : List Char) (p : Nat) :
    boundaryAt (s.drop p) 0 = wordAt s p := by
  simp only [boundaryAt, wordAt_drop, Nat.add_zero]

theorem boundaryAt_drop_succ (s : List Char) (p i : Nat) :
    boundaryAt (s.drop p) (i + 1) = (wordAt s (p + i) != wordAt s (p + i + 1)) := by
  simp only [boundaryAt, wordAt_drop, Nat.add_assoc]

theorem wordAt_lt_length (s : List Char) (i : Nat) (h : wordAt s i = true) :
    i < s.length := by
  unfold wordAt at h
  by_contra hge
  rw [List.getElem?_eq_none (by omega)] at h
  exact absurd h (by simp)

theorem wordAtLast_eq (l : List Char) : wordAtLast l = wordAt l (l.length - 1) := by
  unfold wordAtLast wordAt
  rw [List.getLast?_eq_getElem?]

theorem wordAtHead_eq (l : List Char) : wordAtHead l = wordAt l 0 := by
  unfold wordAtHead wordAt
  rw [List.head?_eq_getElem?]

theorem wordAt_take (D : List Char) (q i : Nat) (h : i < q) :
    wordAt (D.take q) i = wordAt D i := by
  unfold wordAt
  rw [List.getElem?_take_of_lt h]

theorem nextMatchPos_le (s : List Char) (p : Nat) :
    ∀ (cands : List Term) (init : Nat), nextMatchPos cands s p init ≤ init := by
  intro cands
  induction cands with
  | nil => intro init; exact Nat.le_refl _
  | cons t ts ih =>
    intro init
    rw [nextMatchPos_cons]
    cases hi : firstMatchIdx t.name s with
    | none => exact ih init
    | some i =>
      exact Nat.le_trans (ih _) (by dsimp only; split <;> omega)

theorem nextMatchPos_cases (s : List Char) (p : Nat) :
    ∀ (cands : List Term) (init : Nat),
      nextMatchPos cands s p init = init ∨
      ∃ t ∈ cands, ∃ i, firstMatchIdx t.name s = some i ∧
        nextMatchPos cands s p init = p + i := by
  intro cands
  induction cands with
  | nil => intro init; exact Or.inl rfl
  | cons t ts ih =>
    intro init
    rw [nextMatchPos_cons]
    cases hi : firstMatchIdx t.name s with
    | none =>
      dsimp only
      rcases ih init with h | ⟨u, hu, i, hfi, heq⟩
      · exact Or.inl h
      · exact Or.inr ⟨u, List.mem_cons_of_mem _ hu, i, hfi, heq⟩
    | some i =>
      dsimp only
      split
      case isTrue hlt =>
        rcases ih (p + i) with h | ⟨u, hu, j, hfj, heq⟩
        · exact Or.inr ⟨t, List.mem_cons_self _ _, i, hi, h⟩
        · exact Or.inr ⟨u, List.mem_cons_of_mem _ hu, j, hfj, heq⟩
      case isFalse hge =>
        rcases ih init with h | ⟨u, hu, j, hfj, heq⟩
        · exact Or.inl h
        · exact Or.inr ⟨u, List.mem_cons_of_mem _ hu, j, hfj, heq⟩

theorem scanLoop_end (dfn : List Char) (cands : List Term) :
    ∀ fuel p segs, dfn.length ≤ p → scanLoop dfn cands fuel p = some segs →
      segs = [] := by
  intro fuel p segs hle h
  cases fuel with
  | zero =>
    simp only [scanLoop] at h
    rw [if_neg (by omega)] at h
    cases h
    rfl
  | succ fuel =>
    simp only [scanLoop] at h
    rw [if_neg (by omega)] at h
    cases h
    rfl

theorem scanLoop_stall (dfn : List Char) (cands : List Term) (p : Nat) (t : Term)
    (hp : p < dfn.length) (hft : findLinkTerm cands (dfn.drop p) = some t)
    (hname : t.name.length = 0) :
    ∀ fuel, scanLoop dfn cands fuel p = none := by
  intro fuel
  induction fuel with
  | zero =>
    simp only [scanLoop]
    rw [if_pos hp]
  | succ fuel ih =>
    simp only [scanLoop]
    rw [if_pos hp, hft]
    dsimp only
    rw [hname, Nat.add_zero, ih]
    rfl

/-- Position facts for every link segment the scan emits: writing `q` for the
absolute position `p + (concatTexts pre).length` of the segment, the segment's
text is the slice of the definition at `q`, is non-empty, starts with a word
character not preceded by a word character, and ends at a word boundary.
The hypothesis on `p` is the loop invariant: the scan position is `0` or a
word boundary of the full definition. -/
theorem scanLoop_linkPos (dfn : List Char) (cands : List Term) :
    ∀ fuel p segs, scanLoop dfn cands fuel p = some segs →
      (p = 0 ∨ (wordAt dfn (p - 1) != wordAt dfn p) = true) →
      ∀ pre seg post, segs = pre ++ seg :: post → seg.isLink = true →
        1 ≤ seg.text.length ∧
        seg.text = (dfn.drop (p + (concatTexts pre).length)).take seg.text.length ∧
        wordAt dfn (p + (concatTexts pre).length) = true ∧
        (p + (concatTexts pre).length = 0 ∨
          wordAt dfn (p + (concatTexts pre).length - 1) = false) ∧
        (wordAt dfn (p + (concatTexts pre).length + seg.text.length - 1) !=
          wordAt dfn (p + (concatTexts pre).length + seg.text.length)) = true := by
  intro fuel
  induction fuel with
  | zero =>
    intro p segs h hJ pre seg post hdec hlink
    exfalso
    simp only [scanLoop] at h
    split at h
    next => exact absurd h (by simp)
    next =>
      cases h
      cases pre <;> simp at hdec
  | succ fuel ih =>
    intro p segs h hJ pre seg post hdec hlink
    simp only [scanLoop] at h
    split at h
    case isFalse hp =>
      cases h
      exact absurd hdec (by cases pre <;> simp)
    case isTrue hp =>
      cases hft : findLinkTerm cands (dfn.drop p) with
      | some t =>
        rw [hft] at h
        rw [Option.map_eq_some'] at h
        obtain ⟨rest, hrest, hsegs⟩ := h
        subst hsegs
        have hL : 1 ≤ t.name.length := by
          rcases Nat.eq_zero_or_pos t.name.length with h0 | h1
          · exfalso
            have hstall := scanLoop_stall dfn cands p t hp hft h0 fuel
            rw [h0, Nat.add_zero] at hrest
            rw [hstall] at hrest
            cases hrest
          · exact h1
        have hm := findLinkTerm_matches _ _ _ hft
        simp only [matchAt, Bool.and_eq_true] at hm
        obtain ⟨⟨hb0, hcs⟩, hbe⟩ := hm
        rw [List.drop_zero] at hcs
        have hf1 : wordAt dfn p = true := by
          rw [← boundaryAt_drop_zero]
          exact hb0
        have hLle : t.name.length ≤ (dfn.drop p).length := ciStarts_length_le _ _ hcs
        have hf2 : (wordAt dfn (p + t.name.length - 1) !=
            wordAt dfn (p + t.name.length)) = true := by
          have he : 0 + t.name.length = (t.name.length - 1) + 1 := by omega
          rw [he, boundaryAt_drop_succ] at hbe
          have e2 : p + (t.name.length - 1) + 1 = p + t.name.length := by omega
          have e1 : p + (t.name.length - 1) = p + t.name.length - 1 := by omega
          rw [e2, e1] at hbe
          exact hbe
        cases pre with
        | nil =>
          rw [List.nil_append] at hdec
          injection hdec with h1 h2
          subst h1
          refine ⟨?_, ?_, ?_, ?_, ?_⟩
          · show 1 ≤ ((dfn.drop p).take t.name.length).length
            rw [List.length_take]
            omega
          · show (dfn.drop p).take t.name.length =
              (dfn.drop (p + (concatTexts []).length)).take
                ((dfn.drop p).take t.name.length).length
            rw [List.length_take, Nat.min_eq_left hLle]
            rfl
          · exact hf1
          · rcases hJ with h0 | hw
            · exact Or.inl (by show p + 0 = 0; omega)
            · refine Or.inr ?_
              show wordAt dfn (p - 1) = false
              cases hv : wordAt dfn (p - 1)
              · rfl
              · exfalso
                rw [hv, hf1] at hw
                simp at hw
          · show (wordAt dfn (p + ((dfn.drop p).take t.name.length).length - 1) !=
              wordAt dfn (p + ((dfn.drop p).take t.name.length).length)) = true
            rw [List.length_take, Nat.min_eq_left hLle]
            exact hf2
        | cons s₀ pre' =>
          rw [List.cons_append] at hdec
          injection hdec with h1 h2
          have hJ' : p + t.name.length = 0 ∨
              (wordAt dfn (p + t.name.length - 1) !=
                wordAt dfn (p + t.name.length)) = true := Or.inr hf2
          have hq : p + (concatTexts (s₀ :: pre')).length =
              p + t.name.length + (concatTexts pre').length := by
            rw [← h1]
            simp only [concatTexts_cons, List.length_append, List.length_take]
            omega
          rw [hq]
          exact ih (p + t.name.length) rest hrest hJ' pre' seg post h2 hlink
      | none =>
        rw [hft] at h
        simp only [Option.map_eq_some'] at h
        obtain ⟨rest, hrest, hsegs⟩ := h
        have hno : ∀ u ∈ cands, firstMatchIdx u.name (dfn.drop p) ≠ some 0 := by
          intro u hu hcontra
          have hfu := List.find?_eq_none.mp hft u hu
          rw [hcontra] at hfu
          simp at hfu
        set np := nextMatchPos cands (dfn.drop p) p dfn.length with hnpdef
        have hnp_le : np ≤ dfn.length := nextMatchPos_le _ _ _ _
        have hgt : p < np := by
          rcases nextMatchPos_cases (dfn.drop p) p cands dfn.length with hc | ⟨u, hu, i, hfi, heq⟩
          · rw [← hnpdef] at hc
            omega
          · have hiz : i ≠ 0 := fun h0 => hno u hu (h0 ▸ hfi)
            rw [← hnpdef] at heq
            omega
        have hdropne : dfn.drop p ≠ [] := by
          intro hnil
          have := List.drop_eq_nil_iff.mp hnil
          omega
        have htne : ((dfn.drop p).take (np - p)).isEmpty = false := by
          cases he : ((dfn.drop p).take (np - p)).isEmpty
          · rfl
          · exfalso
            rcases List.take_eq_nil_iff.mp (List.isEmpty_iff.mp he) with h0 | h0
            · omega
            · exact hdropne h0
        have hcond : ¬(((dfn.drop p).take (np - p)).isEmpty = true) := by
          simp [htne]
        rw [if_neg hcond] at hsegs
        subst hsegs
        cases pre with
        | nil =>
          rw [List.nil_append] at hdec
          injection hdec with h1 h2
          exfalso
          rw [← h1] at hlink
          exact absurd hlink (by simp)
        | cons s₀ pre' =>
          rw [List.cons_append] at hdec
          injection hdec with h1 h2
          rcases nextMatchPos_cases (dfn.drop p) p cands dfn.length with hc | ⟨u, hu, i, hfi, heq⟩
          · rw [← hnpdef] at hc
            have hrest0 : rest = [] := scanLoop_end dfn cands fuel np rest (by omega) hrest
            rw [hrest0] at h2
            exact absurd h2 (by cases pre' <;> simp)
          · have hnpe : np = p + i := by rw [hnpdef, heq]
            have hi1 : 1 ≤ i := by
              have hiz : i ≠ 0 := fun h0 => hno u hu (h0 ▸ hfi)
              omega
            have hmu := firstMatchIdx_matchAt _ _ _ hfi
            simp only [matchAt, Bool.and_eq_true] at hmu
            obtain ⟨⟨hbu, _⟩, _⟩ := hmu
            have hJ' : np = 0 ∨ (wordAt dfn (np - 1) != wordAt dfn np) = true := by
              refine Or.inr ?_
              have he : i = (i - 1) + 1 := by omega
              rw [he, boundaryAt_drop_succ] at hbu
              have e2 : p + (i - 1) + 1 = np := by omega
              have e1 : p + (i - 1) = np - 1 := by omega
              rw [e2, e1] at hbu
              exact hbu
            have hq : p + (concatTexts (s₀ :: pre')).length =
                np + (concatTexts pre').length := by
              rw [← h1]
              simp only [concatTexts_cons, List.length_append, List.length_take,
                List.length_drop]
              omega
            rw [hq]
            exact ih np rest hrest hJ' pre' seg post h2 hlink

/-- A link segment of the merged output comes from the same link segment of
the raw output, with the same concatenated text before and after it. -/
theorem mergeInto_split (l : List TextSegment) :
    ∀ cur pre seg post, mergeInto cur l = pre ++ seg :: post → seg.isLink = true →
      ∃ pre₀ post₀, cur :: l = pre₀ ++ seg :: post₀ ∧
        concatTexts pre₀ = concatTexts pre ∧ concatTexts post₀ = concatTexts post := by
  induction l with
  | nil =>
    intro cur pre seg post hdec _
    exact ⟨pre, post, hdec, rfl, rfl⟩
  | cons t rest ih =>
    intro cur pre seg post hdec hlink
    simp only [mergeInto] at hdec
    split at hdec
    case isTrue hb =>
      obtain ⟨pre₀, post₀, heq, hpre, hpost⟩ := ih _ pre seg post hdec hlink
      cases pre₀ with
      | nil =>
        exfalso
        rw [List.nil_append] at heq
        injection heq with h1 h2
        rw [← h1] at hlink
        simp only at hlink
        rw [hb.1] at hlink
        cases hlink
      | cons m pre₁ =>
        rw [List.cons_append] at heq
        injection heq with h1 h2
        refine ⟨cur :: t :: pre₁, post₀, ?_, ?_, hpost⟩
        · rw [h2]
          simp
        · rw [← hpre, ← h1]
          simp only [concatTexts_cons]
          rw [List.append_assoc]
    case isFalse hb =>
      cases pre with
      | nil =>
        rw [List.nil_append] at hdec
        injection hdec with h1 h2
        refine ⟨[], t :: rest, ?_, rfl, ?_⟩
        · rw [h1]
          rfl
        · rw [← h2, mergeInto_concat]
          rfl
      | cons s₀ pre' =>
        rw [List.cons_append] at hdec
        injection hdec with h1 h2
        obtain ⟨pre₀, post₀, heq, hpre, hpost⟩ := ih t pre' seg post h2 hlink
        refine ⟨cur :: pre₀, post₀, ?_, ?_, hpost⟩
        · rw [List.cons_append, ← heq]
        · simp only [concatTexts_cons, hpre, h1]

theorem mergeSegs_split (l : List TextSegment) (pre post : List TextSegment)
    (seg : TextSegment) (hdec : mergeSegs l = pre ++ seg :: post)
    (hlink : seg.isLink = true) :
    ∃ pre₀ post₀, l = pre₀ ++ seg :: post₀ ∧
      concatTexts pre₀ = concatTexts pre ∧ concatTexts post₀ = concatTexts post := by
  cases l with
  | nil =>
    exfalso
    rw [mergeSegs] at hdec
    exact absurd hdec (by cases pre <;> simp)
  | cons s rest => exact mergeInto_split rest s pre seg post hdec hlink

/-- Claim C2, counterexample to the claim as stated: with the single term
named `ab-` the definition `x ab-cd` produces a link segment for the
occurrence `ab-` even though that occurrence is immediately followed by the
word character `c` (the regex end boundary `\b` after the non-word character
`-` requires a following word character rather than forbidding one). -/
theorem C2_word_boundary_counterexample :
    parseDefinitionForLinks "x ab-cd".data [⟨"t1", "ab-".data⟩] "t0" =
      some [⟨"x ".data, false, none⟩, ⟨"ab-".data, true, some "t1"⟩,
        ⟨"cd".data, false, none⟩] ∧
    isWordChar 'c' = true :=
  ⟨by decide, by decide⟩

/-- Claim C2, amended: a link segment is emitted only when its occurrence is
not immediately preceded by a word character, begins with a word character,
and ends at a word boundary: the word-character status of its last character
differs from that of the character following the occurrence (end of string
counting as non-word).  In particular a term whose name ends in a word
character, such as `cell`, is linked only when not followed by a word
character, so no link is produced inside `cellular`. -/
theorem C2_word_boundary_amended (D : List Char) (T : List Term) (cid : String)
    (segs pre post : List TextSegment) (seg : TextSegment)
    (h : parseDefinitionForLinks D T cid = some segs)
    (hdec : segs = pre ++ seg :: post) (hlink : seg.isLink = true) :
    wordAtLast (concatTexts pre) = false ∧
    wordAtHead seg.text = true ∧
    wordAtLast seg.text ≠ wordAtHead (concatTexts post) := by
  unfold parseDefinitionForLinks at h
  split at h
  · cases h
    exfalso
    cases pre with
    | nil =>
      rw [List.nil_append] at hdec
      injection hdec with h1 h2
      rw [← h1] at hlink
      exact absurd hlink (by simp)
    | cons s₀ pre' =>
      rw [List.cons_append] at hdec
      injection hdec with h1 h2
      exact absurd h2 (by cases pre' <;> simp)
  · dsimp only at h
    cases hscan : scanLoop D (sortByLenDesc (T.filter (fun t => t.id != cid)))
        (D.length + 1) 0 with
    | none => rw [hscan] at h; cases h
    | some raw =>
      rw [hscan] at h
      cases h
      split at hdec
      · exfalso
        cases pre with
        | nil =>
          rw [List.nil_append] at hdec
          injection hdec with h1 h2
          rw [← h1] at hlink
          exact absurd hlink (by simp)
        | cons s₀ pre' =>
          rw [List.cons_append] at hdec
          injection hdec with h1 h2
          exact absurd h2 (by cases pre' <;> simp)
      · obtain ⟨pre₀, post₀, hraw, hpre, hpost⟩ :=
          mergeSegs_split raw pre post seg hdec hlink
        have hout := scanLoop_linkPos D _ (D.length + 1) 0 raw hscan
          (Or.inl rfl) pre₀ seg post₀ hraw hlink
        obtain ⟨hL1, htext, hwq, hprev, hend⟩ := hout
        simp only [Nat.zero_add] at htext hwq hprev hend
        have hcraw : concatTexts raw = D := by
          have := scanLoop_concat D _ (D.length + 1) 0 raw hscan
          rwa [List.drop_zero] at this
        have hsplit : D = concatTexts pre₀ ++ (seg.text ++ concatTexts post₀) := by
          rw [← hcraw, hraw, concatTexts_append, concatTexts_cons]
        have hq : (concatTexts pre₀).length + seg.text.length ≤ D.length := by
          have := congrArg List.length hsplit
          simp only [List.length_append] at this
          omega
        refine ⟨?_, ?_, ?_⟩
        · rw [← hpre]
          rcases hprev with h0 | hw
          · rw [List.length_eq_zero.mp h0]
            rfl
          · by_cases hz : (concatTexts pre₀).length = 0
            · rw [List.length_eq_zero.mp hz]
              rfl
            · have hpfx : concatTexts pre₀ = D.take (concatTexts pre₀).length := by
                rw [hsplit, List.take_left]
              rw [wordAtLast_eq, hpfx, List.length_take]
              have hlt : min (concatTexts pre₀).length D.length = (concatTexts pre₀).length := by
                omega
              rw [hlt, wordAt_take D _ _ (by omega)]
              rw [hpfx] at hw
              rw [List.length_take, hlt] at hw
              exact hw
        · rw [wordAtHead_eq, htext, wordAt_take _ _ _ (by omega), wordAt_drop,
            Nat.add_zero]
          exact hwq
        · rw [← hpost]
          have hsfx : concatTexts post₀ =
              D.drop ((concatTexts pre₀).length + seg.text.length) := by
            have : D = (concatTexts pre₀ ++ seg.text) ++ concatTexts post₀ := by
              rw [hsplit, List.append_assoc]
            rw [this]
            rw [List.drop_left']
            rw [List.length_append]
          rw [wordAtLast_eq, wordAtHead_eq, hsfx, htext]
          rw [List.length_take]
          have hmin : min seg.text.length (D.drop (concatTexts pre₀).length).length =
              seg.text.length := by
            rw [List.length_drop]
            omega
          rw [hmin, wordAt_take _ _ _ (by omega), wordAt_drop]
          have hd0 : wordAt (D.drop ((concatTexts pre₀).length + seg.text.length)) 0 =
              wordAt D ((concatTexts pre₀).length + seg.text.length) := by
            rw [wordAt_drop, Nat.add_zero]
          rw [hd0]
          have e1 : (concatTexts pre₀).length + (seg.text.length - 1) =
              (concatTexts pre₀).length + seg.text.length - 1 := by omega
          rw [e1]
          exact bne_iff_ne.mp hend

/-- Witness for the amended C2 at a concrete input with a link. -/
theorem C2_word_boundary_amended_witness :
    wordAtLast (concatTexts [(⟨"a ".data, false, none⟩ : TextSegment)]) = false ∧
    wordAtHead ("cell".data) = true ∧
    wordAtLast ("cell".data) ≠ wordAtHead (concatTexts ([] : List TextSegment)) :=
  C2_word_boundary_amended "a cell".data [⟨"id1", "cell".data⟩] "id0"
    [⟨"a ".data, false, none⟩, ⟨"cell".data, true, some "id1"⟩]
    [⟨"a ".data, false, none⟩] [] ⟨"cell".data, true, some "id1"⟩
    (by decide) (by decide) rfl

end Glossary
